import Mathlib

/-!
Shallow embedding of the CTR prediction models of this repository
(AFM in src/AFM/model.py, DeepFM in src/DeepFM/model.py) over the real
numbers, together with theorems about their forward passes.

Every tensor operation in both forward passes acts on each batch row
independently, so a batch is modelled as a family of rows indexed by
Fin b and the per-example forward pass is the basic object. Vectors of
a statically known dimension k are functions Fin k -> Real; variable
length collections (the list of field embeddings, the list of pairwise
interactions) are Lean lists; dimension-indexed flat vectors built by
tf.concat are functions from Nat paired with their length. Keras layer
construction (the __init__ methods) is modelled by explicit parameter
structures plus an init function, and the fact that AFM.__init__ only
creates the attention layers when mode = "att" is modelled by an
Option field, so the forward pass returns Option Real: none models the
attribute error raised when the layers are absent.
-/

set_option linter.unusedVariables false

namespace CTR

/-- Logistic sigmoid, the semantics of tf.nn.sigmoid over the reals. -/
noncomputable def sigmoid (z : ℝ) : ℝ := 1 / (1 + Real.exp (-z))

/-- Softmax of a list of scores along the list, the semantics of
tf.nn.softmax over axis 1 applied to one batch row: each score x is
mapped to exp x divided by the sum of exp over the whole list. -/
noncomputable def softmaxList (xs : List ℝ) : List ℝ :=
  xs.map (fun x => Real.exp x / (xs.map Real.exp).sum)

/-- Parameters of the two attention layers created in AFM.__init__ when
mode = "att": attention_W is a Dense layer with t units, a bias and an
activation function, and attention_dense is a Dense layer with a single
unit and no activation. -/
structure AttParams (k t : ℕ) where
  act : ℝ → ℝ
  W : Fin t → Fin k → ℝ
  Wb : Fin t → ℝ
  h : Fin t → ℝ
  hb : ℝ

/-- Parameters of an AFM model. The model has n sparse fields; field i
has cardinality featNum i and an embedding table embed i mapping a
sparse index to a vector of dimension k. The att field holds the
attention layers when they were created and none otherwise, and
dropoutRate records the Dropout layer constructed in AFM.__init__. -/
structure AFMParams (k t : ℕ) where
  n : ℕ
  featNum : ℕ → ℕ
  embed : ℕ → ℕ → Fin k → ℝ
  mode : String
  att : Option (AttParams k t)
  dropoutRate : ℝ
  denseW : Fin k → ℝ
  denseB : ℝ

/-- AFM.__init__: stores the feature columns, the mode and the embedding
tables, creates the attention layers only when mode equals "att",
and creates the Dropout layer and the final one-unit Dense layer. -/
def AFM.init {k t : ℕ} (n : ℕ) (featNum : ℕ → ℕ) (embed : ℕ → ℕ → Fin k → ℝ)
    (mode : String) (attInit : AttParams k t) (dropout : ℝ)
    (denseW : Fin k → ℝ) (denseB : ℝ) : AFMParams k t :=
  ⟨n, featNum, embed, mode, if mode = "att" then some attInit else none,
    dropout, denseW, denseB⟩

/-- Pairs (r, c) with r < c < n in the order produced by
itertools.combinations(range(n), 2). -/
def combinations2 (n : ℕ) : List (ℕ × ℕ) :=
  (List.range n).flatMap (fun r => ((List.range n).filter (fun c => r < c)).map (fun c => (r, c)))

/-- The row list built in AFM.call: first components of the pairs. -/
def rowIdx (n : ℕ) : List ℕ := (combinations2 n).map Prod.fst

/-- The col list built in AFM.call: second components of the pairs. -/
def colIdx (n : ℕ) : List ℕ := (combinations2 n).map Prod.snd

/-- tf.gather along the pairs axis for one batch row: pick the embedding
vectors at the given positions. -/
def gather {k : ℕ} (es : List (Fin k → ℝ)) (idx : List ℕ) : List (Fin k → ℝ) :=
  idx.map (fun i => es.getD i (fun _ => 0))

/-- Embedding layer of AFM.call for one batch row: embedding lookup of
the sparse input of each of the n fields. -/
def AFM.embedList {k t : ℕ} (p : AFMParams k t) (sparse : ℕ → ℕ) : List (Fin k → ℝ) :=
  (List.range p.n).map (fun i => p.embed i (sparse i))

/-- Pair-wise interaction layer of AFM.call for one batch row:
bi_interaction = p * q where p gathers the row indices and q the col
indices, an elementwise product per unordered pair of fields. -/
noncomputable def AFM.biInteraction {k : ℕ} (es : List (Fin k → ℝ)) (n : ℕ) :
    List (Fin k → ℝ) :=
  List.zipWith (fun u v => fun f => u f * v f) (gather es (rowIdx n)) (gather es (colIdx n))

/-- Scalar attention score of one interaction vector:
attention_dense(attention_W(v)), the two Dense layers applied along the
last axis. -/
noncomputable def AFM.attentionScore {k t : ℕ} (a : AttParams k t) (v : Fin k → ℝ) : ℝ :=
  a.hb + ∑ u, a.h u * a.act (a.Wb u + ∑ f, v f * a.W u f)

/-- AFM.attention for one batch row: softmax of the scores across the
pairs axis, then the attention-weighted sum of the interaction
vectors. -/
noncomputable def AFM.attention {k t : ℕ} (a : AttParams k t) (bi : List (Fin k → ℝ)) :
    Fin k → ℝ :=
  fun f => (List.zipWith (fun v w => v f * w) bi
    (softmaxList (bi.map (AFM.attentionScore a)))).sum

/-- Mode dispatch of AFM.call: tf.reduce_sum over the pairs axis for
"max", tf.reduce_mean for "avg", and the attention layer for every
other mode; the attention branch needs the attention layers and yields
none when they were not created. -/
noncomputable def AFM.pool {k t : ℕ} (p : AFMParams k t) (bi : List (Fin k → ℝ)) :
    Option (Fin k → ℝ) :=
  if p.mode = "max" then some (fun f => (bi.map (fun v => v f)).sum)
  else if p.mode = "avg" then some (fun f => (bi.map (fun v => v f)).sum / (bi.length : ℝ))
  else p.att.map (fun a => AFM.attention a bi)

/-- AFM.call for one batch row: unpack the dense and sparse inputs,
embed the sparse fields, build the pairwise interactions, pool them
according to the mode, and apply the final one-unit Dense layer
followed by sigmoid. The dense inputs are unpacked but unused, exactly
as in the source. -/
noncomputable def AFM.call {k t : ℕ} (p : AFMParams k t) (dense : ℕ → ℝ)
    (sparse : ℕ → ℕ) : Option ℝ :=
  (AFM.pool p (AFM.biInteraction (AFM.embedList p sparse) p.n)).map
    (fun x => sigmoid (p.denseB + ∑ f, p.denseW f * x f))

/-- AFM.call on a whole batch: row i of the output column vector is the
forward pass on row i of the inputs. -/
noncomputable def AFM.callBatch {k t b : ℕ} (p : AFMParams k t)
    (D : Fin b → ℕ → ℝ) (S : Fin b → ℕ → ℕ) : Fin b → Option ℝ :=
  fun i => AFM.call p (D i) (S i)

/-- Parameters of the FM layer of src/DeepFM/model.py after build: a
scalar bias w0, a linear weight column w and the latent matrix V with k
rows, one latent coordinate per row and one column per input feature. -/
structure FMParams where
  k : ℕ
  w0 : ℝ
  w : ℕ → ℝ
  V : ℕ → ℕ → ℝ

/-- First-order term of FM.call on an input row of dimension d:
w0 + inputs times w. -/
noncomputable def FM.firstOrder (p : FMParams) (d : ℕ) (x : ℕ → ℝ) : ℝ :=
  p.w0 + ∑ i ∈ Finset.range d, x i * p.w i

/-- Second-order term of FM.call on an input row of dimension d, the
closed form 0.5 * sum over latent coordinates of the squared projection
minus the projected squares. -/
noncomputable def FM.secondOrder (p : FMParams) (d : ℕ) (x : ℕ → ℝ) : ℝ :=
  (1 / 2) * ∑ f ∈ Finset.range p.k,
    ((∑ i ∈ Finset.range d, x i * p.V f i) ^ 2 -
      ∑ i ∈ Finset.range d, x i ^ 2 * p.V f i ^ 2)

/-- FM.call: sum of the first-order and second-order terms. -/
noncomputable def FM.call (p : FMParams) (d : ℕ) (x : ℕ → ℝ) : ℝ :=
  FM.firstOrder p d x + FM.secondOrder p d x

/-- Unordered index pairs (i, j) with i < j < d. -/
def pairsLT (d : ℕ) : Finset (ℕ × ℕ) :=
  (Finset.range d ×ˢ Finset.range d).filter (fun q => q.1 < q.2)

/-- Modelled from the spec: the brute-force pairwise enumeration of the
second-order factorization machine term, the sum over all unordered
index pairs i < j of the latent inner product of columns i and j of V
times x i times x j. This is the comparison side of the refinement
claim, written from the words of the spec. -/
noncomputable def bruteForceSecondOrder (d k : ℕ) (x : ℕ → ℝ) (V : ℕ → ℕ → ℝ) : ℝ :=
  ∑ q ∈ pairsLT d, (∑ f ∈ Finset.range k, V f q.1 * V f q.2) * x q.1 * x q.2

/-- One Keras Dense layer of the DNN part: kernel of shape
(inDim, outDim) and a bias per output unit. -/
structure DenseLayer where
  inDim : ℕ
  outDim : ℕ
  W : ℕ → ℕ → ℝ
  b : ℕ → ℝ

/-- Application of one Dense layer with an activation function:
act (x times W + b) coordinatewise. -/
noncomputable def denseApply (act : ℝ → ℝ) (L : DenseLayer) (x : ℕ → ℝ) : ℕ → ℝ :=
  fun o => act (L.b o + ∑ i ∈ Finset.range L.inDim, x i * L.W i o)

/-- The loop of DNN.call: apply the hidden Dense layers in order. -/
noncomputable def dnnForward (act : ℝ → ℝ) (layers : List DenseLayer) (x : ℕ → ℝ) : ℕ → ℝ :=
  layers.foldl (fun v L => denseApply act L v) x

/-- Keras Dropout at inference time is the identity map; the dropout
applied at the end of DNN.call is modelled accordingly. -/
def dropoutId (x : ℕ → ℝ) : ℕ → ℝ := x

/-- Output dimension of the DNN stack given the input dimension. -/
def dnnOutDim (layers : List DenseLayer) (d0 : ℕ) : ℕ :=
  layers.foldl (fun d L => L.outDim) d0

/-- Parameters of a DeepFM model: m dense features, n sparse fields with
cardinalities featNum, per-field embedding dimensions embedDim and
embedding tables embedT, the FM layer, the DNN hidden layers with their
activation, and the final one-unit linear Dense layer. -/
structure DeepFMParams where
  m : ℕ
  n : ℕ
  featNum : ℕ → ℕ
  embedDim : ℕ → ℕ
  embedT : ℕ → ℕ → ℕ → ℝ
  fm : FMParams
  act : ℝ → ℝ
  dnnLayers : List DenseLayer
  lastW : ℕ → ℝ
  lastB : ℝ

/-- tf.concat along the last axis of two dimension-tagged vectors. -/
def vconcat (a b : ℕ × (ℕ → ℝ)) : ℕ × (ℕ → ℝ) :=
  (a.1 + b.1, fun j => if j < a.1 then a.2 j else b.2 (j - a.1))

/-- tf.concat along the last axis of a list of dimension-tagged
vectors. -/
def concatAll (l : List (ℕ × (ℕ → ℝ))) : ℕ × (ℕ → ℝ) :=
  l.foldr vconcat (0, fun _ => 0)

/-- Stacked input of DeepFM.call for one batch row: the dense features
concatenated with the concatenation of all sparse field embeddings. -/
def DeepFM.stack (p : DeepFMParams) (dense : ℕ → ℝ) (sparse : ℕ → ℕ) : ℕ × (ℕ → ℝ) :=
  vconcat (p.m, dense)
    (concatAll ((List.range p.n).map (fun i => (p.embedDim i, p.embedT i (sparse i)))))

/-- Wide part of DeepFM.call: the FM layer applied to the stack. -/
noncomputable def DeepFM.wide (p : DeepFMParams) (dense : ℕ → ℝ) (sparse : ℕ → ℕ) : ℝ :=
  FM.call p.fm (DeepFM.stack p dense sparse).1 (DeepFM.stack p dense sparse).2

/-- Deep part of DeepFM.call: the DNN hidden layers applied to the
stack, followed by the final one-unit linear Dense layer. -/
noncomputable def DeepFM.deep (p : DeepFMParams) (dense : ℕ → ℝ) (sparse : ℕ → ℕ) : ℝ :=
  p.lastB + ∑ i ∈ Finset.range (dnnOutDim p.dnnLayers (DeepFM.stack p dense sparse).1),
    dropoutId (dnnForward p.act p.dnnLayers (DeepFM.stack p dense sparse).2) i * p.lastW i

/-- DeepFM.call for one batch row: embed and concatenate, feed the same
stack to the FM layer and to the DNN plus final Dense layer, add the
two scalars, and apply sigmoid. -/
noncomputable def DeepFM.call (p : DeepFMParams) (dense : ℕ → ℝ) (sparse : ℕ → ℕ) : ℝ :=
  sigmoid
    (FM.call p.fm (DeepFM.stack p dense sparse).1 (DeepFM.stack p dense sparse).2 +
      (p.lastB + ∑ i ∈ Finset.range (dnnOutDim p.dnnLayers (DeepFM.stack p dense sparse).1),
        dropoutId (dnnForward p.act p.dnnLayers (DeepFM.stack p dense sparse).2) i * p.lastW i))

/-- DeepFM.call on a whole batch: row i of the output column vector is
the forward pass on row i of the inputs. -/
noncomputable def DeepFM.callBatch (p : DeepFMParams) {b : ℕ}
    (D : Fin b → ℕ → ℝ) (S : Fin b → ℕ → ℕ) : Fin b → ℝ :=
  fun i => DeepFM.call p (D i) (S i)

/-- Concrete attention layer parameters used in witness instances. -/
def testAtt : AttParams 1 1 := ⟨id, fun _ _ => 0, fun _ => 0, fun _ => 0, 0⟩

/-- Concrete AFM instance with two sparse fields of cardinality one,
embedding dimension one and all-zero weights. -/
noncomputable def testAFM (mode : String) : AFMParams 1 1 :=
  AFM.init 2 (fun _ => 1) (fun _ _ _ => 0) mode testAtt (1 / 2) (fun _ => 0) 0

/-- Concrete DeepFM instance with one dense feature and one sparse field
of cardinality one, no hidden layers and all-zero weights. -/
def testDeepFM : DeepFMParams :=
  ⟨1, 1, fun _ => 1, fun _ => 1, fun _ _ _ => 0, ⟨1, 0, fun _ => 0, fun _ _ => 0⟩,
    id, [], fun _ => 0, 0⟩

/-! ### Helper lemmas -/

theorem sigmoid_mem_Icc (z : ℝ) : sigmoid z ∈ Set.Icc (0 : ℝ) 1 := by
  have h0 : 0 < Real.exp (-z) := Real.exp_pos _
  unfold sigmoid
  constructor
  · positivity
  · rw [div_le_one (by linarith)]
    linarith

theorem sum_map_range_nat (n : ℕ) (g : ℕ → ℕ) :
    ((List.range n).map g).sum = ∑ i ∈ Finset.range n, g i := by
  induction n with
  | zero => rfl
  | succ n ih => rw [List.range_succ]; simp [Finset.sum_range_succ, ih]

theorem length_filter_range_lt (n r : ℕ) :
    ((List.range n).filter (fun c => r < c)).length = n - r - 1 := by
  induction n with
  | zero => simp
  | succ n ih =>
    rw [List.range_succ, List.filter_append, List.length_append, ih]
    by_cases h : r < n
    · simp [List.filter, h]
      omega
    · simp [List.filter, h]
      omega

theorem combinations2_length (n : ℕ) :
    (combinations2 n).length = n * (n - 1) / 2 := by
  unfold combinations2
  rw [List.length_flatMap]
  simp only [Function.comp_def]
  have h1 : ((List.range n).map
      (fun r => (((List.range n).filter (fun c => r < c)).map (fun c => (r, c))).length)).sum =
      ∑ r ∈ Finset.range n, (n - r - 1) := by
    rw [sum_map_range_nat]
    exact Finset.sum_congr rfl (fun r _ => by rw [List.length_map, length_filter_range_lt])
  rw [h1]
  have h2 : ∑ r ∈ Finset.range n, (n - r - 1) = ∑ r ∈ Finset.range n, r := by
    rw [← Finset.sum_range_reflect (fun j => j) n]
    exact Finset.sum_congr rfl (fun i hi => by
      have := Finset.mem_range.1 hi; omega)
  have h3 := Finset.sum_range_id_mul_two n
  omega

theorem mem_combinations2 (n i j : ℕ) :
    (i, j) ∈ combinations2 n ↔ i < j ∧ j < n := by
  simp only [combinations2, List.mem_flatMap, List.mem_map, List.mem_filter,
    List.mem_range, decide_eq_true_eq, Prod.mk.injEq]
  constructor
  · rintro ⟨r, hr, c, ⟨hc1, hc2⟩, rfl, rfl⟩
    exact ⟨hc2, hc1⟩
  · rintro ⟨hij, hjn⟩
    exact ⟨i, by omega, j, ⟨hjn, hij⟩, rfl, rfl⟩

theorem nodup_combinations2 (n : ℕ) : (combinations2 n).Nodup := by
  unfold combinations2
  rw [List.nodup_flatMap]
  constructor
  · intro r hr
    exact ((List.nodup_range n).filter _).map (fun c1 c2 h => congrArg Prod.snd h)
  · have hpw : (List.range n).Pairwise (· < ·) := List.pairwise_lt_range n
    refine hpw.imp ?_
    intro r s hrs
    intro q hq1 hq2
    rcases List.mem_map.1 hq1 with ⟨c1, _, rfl⟩
    rcases List.mem_map.1 hq2 with ⟨c2, _, heq⟩
    have : s = r := congrArg Prod.fst heq
    omega

theorem zipWith_map_same {α β γ δ : Type*} (F : β → γ → δ) (g1 : α → β) (g2 : α → γ)
    (l : List α) : List.zipWith F (l.map g1) (l.map g2) = l.map (fun x => F (g1 x) (g2 x)) := by
  induction l with
  | nil => rfl
  | cons a t ih => simp [ih]

theorem biInteraction_eq_map {k : ℕ} (es : List (Fin k → ℝ)) (n : ℕ) :
    AFM.biInteraction es n =
      (combinations2 n).map
        (fun rc => fun f => es.getD rc.1 (fun _ => 0) f * es.getD rc.2 (fun _ => 0) f) := by
  unfold AFM.biInteraction gather rowIdx colIdx
  rw [List.map_map, List.map_map, zipWith_map_same]
  rfl

theorem biInteraction_length {k : ℕ} (es : List (Fin k → ℝ)) (n : ℕ) :
    (AFM.biInteraction es n).length = n * (n - 1) / 2 := by
  rw [biInteraction_eq_map, List.length_map, combinations2_length]

theorem getD_map_of_lt {α β : Type*} (l : List α) (F : α → β) (m : ℕ) (d : β) (hd : α)
    (h : m < l.length) : (l.map F).getD m d = F (l.getD m hd) := by
  rw [List.getD_eq_getElem?_getD, List.getD_eq_getElem?_getD, List.getElem?_map]
  simp [List.getElem?_eq_getElem h]

theorem range_getD (n i : ℕ) (h : i < n) : (List.range n).getD i 0 = i := by
  rw [List.getD_eq_getElem?_getD, List.getElem?_range h]
  rfl

theorem embedList_getD {k t : ℕ} (p : AFMParams k t) (s : ℕ → ℕ) (i : ℕ) (h : i < p.n) :
    (AFM.embedList p s).getD i (fun _ => 0) = p.embed i (s i) := by
  unfold AFM.embedList
  rw [getD_map_of_lt _ _ _ _ 0 (by simpa using h), range_getD _ _ h]

theorem getD_mem_of_lt {α : Type*} (l : List α) (m : ℕ) (d : α) (h : m < l.length) :
    l.getD m d ∈ l := by
  rw [List.getD_eq_getElem?_getD, List.getElem?_eq_getElem h]
  exact List.getElem_mem h

theorem sum_map_div (l : List ℝ) (b : ℝ) : (l.map (fun x => x / b)).sum = l.sum / b := by
  induction l with
  | nil => simp
  | cons a t ih => simp [ih, add_div]

theorem exp_list_sum_pos (xs : List ℝ) (h : xs ≠ []) : 0 < (xs.map Real.exp).sum := by
  refine List.sum_pos _ ?_ ?_
  · intro y hy
    rcases List.mem_map.1 hy with ⟨z, _, rfl⟩
    exact Real.exp_pos z
  · simpa using h

theorem softmaxList_nonneg (xs : List ℝ) : ∀ w ∈ softmaxList xs, 0 ≤ w := by
  intro w hw
  unfold softmaxList at hw
  rcases List.mem_map.1 hw with ⟨x, hx, rfl⟩
  have hS : 0 < (xs.map Real.exp).sum := exp_list_sum_pos xs (List.ne_nil_of_mem hx)
  have hx0 : 0 < Real.exp x := Real.exp_pos x
  positivity

theorem softmaxList_sum (xs : List ℝ) (h : xs ≠ []) : (softmaxList xs).sum = 1 := by
  have hS : 0 < (xs.map Real.exp).sum := exp_list_sum_pos xs h
  unfold softmaxList
  rw [show xs.map (fun x => Real.exp x / (xs.map Real.exp).sum) =
      (xs.map Real.exp).map (fun y => y / (xs.map Real.exp).sum) from by
    rw [List.map_map]
    rfl]
  rw [sum_map_div, div_self (ne_of_gt hS)]

theorem pairsLT_succ (d : ℕ) :
    pairsLT (d + 1) = pairsLT d ∪ (Finset.range d).image (fun i => (i, d)) := by
  ext q
  rcases q with ⟨i, j⟩
  simp only [pairsLT, Finset.mem_filter, Finset.mem_product, Finset.mem_range,
    Finset.mem_union, Finset.mem_image, Prod.mk.injEq]
  constructor
  · rintro ⟨⟨hi, hj⟩, hij⟩
    by_cases hjd : j < d
    · exact Or.inl ⟨⟨by omega, hjd⟩, hij⟩
    · exact Or.inr ⟨i, by omega, rfl, by omega⟩
  · rintro (⟨⟨hi, hj⟩, hij⟩ | ⟨a, ha, rfl, rfl⟩)
    · exact ⟨⟨by omega, by omega⟩, hij⟩
    · exact ⟨⟨by omega, by omega⟩, ha⟩

theorem pairsLT_disjoint (d : ℕ) :
    Disjoint (pairsLT d) ((Finset.range d).image (fun i => (i, d))) := by
  rw [Finset.disjoint_left]
  rintro ⟨i, j⟩ hq hq2
  simp only [pairsLT, Finset.mem_filter, Finset.mem_product, Finset.mem_range] at hq
  simp only [Finset.mem_image, Finset.mem_range, Prod.mk.injEq] at hq2
  rcases hq2 with ⟨a, ha, rfl, rfl⟩
  omega

theorem sq_sum_identity (d : ℕ) (g : ℕ → ℝ) :
    (∑ i ∈ Finset.range d, g i) ^ 2 =
      (∑ i ∈ Finset.range d, g i ^ 2) + 2 * ∑ q ∈ pairsLT d, g q.1 * g q.2 := by
  induction d with
  | zero => simp [pairsLT]
  | succ d ih =>
    rw [Finset.sum_range_succ, Finset.sum_range_succ (fun i => g i ^ 2), pairsLT_succ,
      Finset.sum_union (pairsLT_disjoint d),
      Finset.sum_image (fun a _ b _ h => congrArg Prod.fst h)]
    have hs : ∑ i ∈ Finset.range d, g i * g d = (∑ i ∈ Finset.range d, g i) * g d :=
      (Finset.sum_mul _ _ _).symm
    rw [hs]
    nlinarith [ih]

/-! ### Claim theorems -/

/-- C1: for every valid input pair, the forward pass of each model
(AFM.call and DeepFM.call) returns a column vector, one entry per batch
row, in which every entry lies in the closed interval between 0 and 1. -/
theorem models_output_in_unit_interval :
    (∀ (k t b : ℕ) (p : AFMParams k t) (D : Fin b → ℕ → ℝ) (S : Fin b → ℕ → ℕ)
        (i : Fin b) (y : ℝ),
        (∀ g, g < p.n → S i g < p.featNum g) →
        AFM.callBatch p D S i = some y → y ∈ Set.Icc (0 : ℝ) 1) ∧
    (∀ (p : DeepFMParams) (b : ℕ) (D : Fin b → ℕ → ℝ) (S : Fin b → ℕ → ℕ) (i : Fin b),
        (∀ g, g < p.n → S i g < p.featNum g) →
        DeepFM.callBatch p D S i ∈ Set.Icc (0 : ℝ) 1) := by
  constructor
  · intro k t b p D S i y hvalid hcall
    unfold AFM.callBatch AFM.call at hcall
    rcases Option.map_eq_some'.1 hcall with ⟨x, hx, rfl⟩
    exact sigmoid_mem_Icc _
  · intro p b D S i hvalid
    exact sigmoid_mem_Icc _

/-- C2: the closed-form second-order term of FM.call equals the
brute-force sum over all unordered index pairs i < j, and FM.call
equals the bias plus the linear term plus that pairwise sum. -/
theorem fm_second_order_matches_bruteforce (p : FMParams) (d : ℕ) (x : ℕ → ℝ) :
    FM.secondOrder p d x = bruteForceSecondOrder d p.k x p.V ∧
    FM.call p d x =
      p.w0 + (∑ i ∈ Finset.range d, x i * p.w i) + bruteForceSecondOrder d p.k x p.V := by
  have key : FM.secondOrder p d x = bruteForceSecondOrder d p.k x p.V := by
    unfold FM.secondOrder bruteForceSecondOrder
    have h1 : ∀ f : ℕ,
        (∑ i ∈ Finset.range d, x i * p.V f i) ^ 2 -
          ∑ i ∈ Finset.range d, x i ^ 2 * p.V f i ^ 2 =
        2 * ∑ q ∈ pairsLT d, (x q.1 * p.V f q.1) * (x q.2 * p.V f q.2) := by
      intro f
      have hsq := sq_sum_identity d (fun i => x i * p.V f i)
      have h2 : ∑ i ∈ Finset.range d, (x i * p.V f i) ^ 2 =
          ∑ i ∈ Finset.range d, x i ^ 2 * p.V f i ^ 2 :=
        Finset.sum_congr rfl (fun i _ => by ring)
      rw [← h2]
      linarith [hsq]
    calc (1 / 2 : ℝ) * ∑ f ∈ Finset.range p.k,
          ((∑ i ∈ Finset.range d, x i * p.V f i) ^ 2 -
            ∑ i ∈ Finset.range d, x i ^ 2 * p.V f i ^ 2)
        = (1 / 2 : ℝ) * ∑ f ∈ Finset.range p.k,
            (2 * ∑ q ∈ pairsLT d, (x q.1 * p.V f q.1) * (x q.2 * p.V f q.2)) := by
          rw [Finset.sum_congr rfl (fun f _ => h1 f)]
      _ = ∑ f ∈ Finset.range p.k,
            ∑ q ∈ pairsLT d, (x q.1 * p.V f q.1) * (x q.2 * p.V f q.2) := by
          rw [Finset.mul_sum]
          exact Finset.sum_congr rfl (fun f _ => by ring)
      _ = ∑ q ∈ pairsLT d,
            ∑ f ∈ Finset.range p.k, (x q.1 * p.V f q.1) * (x q.2 * p.V f q.2) :=
          Finset.sum_comm
      _ = ∑ q ∈ pairsLT d, (∑ f ∈ Finset.range p.k, p.V f q.1 * p.V f q.2) * x q.1 * x q.2 := by
          refine Finset.sum_congr rfl (fun q _ => ?_)
          rw [Finset.sum_mul, Finset.sum_mul]
          exact Finset.sum_congr rfl (fun f _ => by ring)
  refine ⟨key, ?_⟩
  unfold FM.call FM.firstOrder
  rw [key]

/-- C3: for a model with at least two sparse fields, the pair-wise
interaction layer yields exactly n times n minus one over two
interaction vectors, one per unordered pair of fields with i < j, and
the vector at the position of pair (i, j) is the elementwise product of
the embeddings of fields i and j. -/
theorem afm_pairwise_interaction_layer (k t : ℕ) (p : AFMParams k t) (s : ℕ → ℕ)
    (hn : 2 ≤ p.n) :
    (AFM.biInteraction (AFM.embedList p s) p.n).length = p.n * (p.n - 1) / 2 ∧
    (combinations2 p.n).Nodup ∧
    (∀ i j : ℕ, ((i, j) ∈ combinations2 p.n ↔ i < j ∧ j < p.n)) ∧
    (∀ m i j : ℕ, m < (combinations2 p.n).length →
      (combinations2 p.n).getD m (0, 0) = (i, j) →
      (AFM.biInteraction (AFM.embedList p s) p.n).getD m (fun _ => 0) =
        fun f => p.embed i (s i) f * p.embed j (s j) f) := by
  refine ⟨biInteraction_length _ _, nodup_combinations2 _,
    fun i j => mem_combinations2 _ i j, ?_⟩
  intro m i j hm hpair
  have hmem : ((combinations2 p.n).getD m (0, 0)) ∈ combinations2 p.n :=
    getD_mem_of_lt _ m _ hm
  rw [hpair] at hmem
  have hij := (mem_combinations2 p.n i j).1 hmem
  rw [biInteraction_eq_map, getD_map_of_lt _ _ m _ (0, 0) hm, hpair]
  simp only [embedList_getD p s i (by omega), embedList_getD p s j hij.2]

/-- C4: with mode "max", the pooling step reduces the pairwise
interaction tensor by summation over the pairs axis: each pooled
coordinate is the sum of that coordinate over all interaction
vectors. -/
theorem afm_max_mode_pools_by_sum (k t : ℕ) (p : AFMParams k t) (s : ℕ → ℕ)
    (h : p.mode = "max") :
    AFM.pool p (AFM.biInteraction (AFM.embedList p s) p.n) =
      some (fun f =>
        ((AFM.biInteraction (AFM.embedList p s) p.n).map (fun v => v f)).sum) := by
  unfold AFM.pool
  rw [h, if_pos rfl]

/-- C5: with mode "att" and the attention layers present, the softmax
scores across the pairs axis are nonnegative and sum to 1, and the
pooled output is the attention-score-weighted sum of the pairwise
interaction vectors. -/
theorem afm_attention_softmax_normalized (k t : ℕ) (p : AFMParams k t) (a : AttParams k t)
    (s : ℕ → ℕ) (hmode : p.mode = "att") (ha : p.att = some a) (hn : 2 ≤ p.n) :
    (∀ w ∈ softmaxList ((AFM.biInteraction (AFM.embedList p s) p.n).map
        (AFM.attentionScore a)), 0 ≤ w) ∧
    (softmaxList ((AFM.biInteraction (AFM.embedList p s) p.n).map
        (AFM.attentionScore a))).sum = 1 ∧
    AFM.pool p (AFM.biInteraction (AFM.embedList p s) p.n) =
      some (fun f => (List.zipWith (fun v w => v f * w)
        (AFM.biInteraction (AFM.embedList p s) p.n)
        (softmaxList ((AFM.biInteraction (AFM.embedList p s) p.n).map
          (AFM.attentionScore a)))).sum) := by
  have hne : (AFM.biInteraction (AFM.embedList p s) p.n) ≠ [] := by
    have hl := biInteraction_length (AFM.embedList p s) p.n
    have h2 : 2 ≤ p.n * (p.n - 1) := by
      calc 2 ≤ p.n := hn
        _ = p.n * 1 := (mul_one _).symm
        _ ≤ p.n * (p.n - 1) := Nat.mul_le_mul_left _ (by omega)
    have h3 : 2 / 2 ≤ p.n * (p.n - 1) / 2 := Nat.div_le_div_right h2
    intro hnil
    rw [hnil] at hl
    simp at hl
    omega
  refine ⟨softmaxList_nonneg _, softmaxList_sum _ (by simpa using hne), ?_⟩
  unfold AFM.pool
  rw [hmode, ha, if_neg (by decide), if_neg (by decide)]
  rfl

/-- C6: the three pooling modes all produce a pooled vector of the same
shape, a function on the k embedding coordinates, before the final
Dense-plus-sigmoid output layer. -/
theorem afm_pooling_modes_same_shape (k t n : ℕ) (featNum : ℕ → ℕ)
    (embed : ℕ → ℕ → Fin k → ℝ) (a : AttParams k t) (r : ℝ) (dW : Fin k → ℝ) (dB : ℝ)
    (s : ℕ → ℕ) :
    ∃ vmax vavg vatt : Fin k → ℝ,
      AFM.pool (AFM.init n featNum embed "max" a r dW dB)
          (AFM.biInteraction
            (AFM.embedList (AFM.init n featNum embed "max" a r dW dB) s) n) = some vmax ∧
      AFM.pool (AFM.init n featNum embed "avg" a r dW dB)
          (AFM.biInteraction
            (AFM.embedList (AFM.init n featNum embed "avg" a r dW dB) s) n) = some vavg ∧
      AFM.pool (AFM.init n featNum embed "att" a r dW dB)
          (AFM.biInteraction
            (AFM.embedList (AFM.init n featNum embed "att" a r dW dB) s) n) = some vatt := by
  refine ⟨fun f => ((AFM.biInteraction
      (AFM.embedList (AFM.init n featNum embed "max" a r dW dB) s) n).map
        (fun v => v f)).sum,
    fun f => ((AFM.biInteraction
      (AFM.embedList (AFM.init n featNum embed "avg" a r dW dB) s) n).map
        (fun v => v f)).sum /
      ((AFM.biInteraction
        (AFM.embedList (AFM.init n featNum embed "avg" a r dW dB) s) n).length : ℝ),
    AFM.attention a (AFM.biInteraction
      (AFM.embedList (AFM.init n featNum embed "att" a r dW dB) s) n),
    ?_, ?_, ?_⟩ <;> simp [AFM.pool, AFM.init]

/-- C7: DeepFM.call returns sigmoid of wide plus deep, where wide is
the FM layer on the stacked input and deep is the DNN followed by the
final one-unit linear Dense layer on the same stacked input, combined
by addition before the sigmoid. -/
theorem deepfm_additive_fusion (p : DeepFMParams) (dense : ℕ → ℝ) (sparse : ℕ → ℕ) :
    DeepFM.call p dense sparse =
      sigmoid (DeepFM.wide p dense sparse + DeepFM.deep p dense sparse) := rfl

/-- C8: the output of AFM.call does not depend on the dense-feature
inputs: any two dense inputs yield identical outputs for the same
sparse inputs and parameters. -/
theorem afm_ignores_dense_inputs (k t : ℕ) (p : AFMParams k t) (d1 d2 : ℕ → ℝ)
    (s : ℕ → ℕ) : AFM.call p d1 s = AFM.call p d2 s := rfl

/-- C9: constructing an AFM model with a mode other than "max", "avg"
or "att" makes AFM.call fail on every input, because the dispatch
routes every other mode to the attention branch while the attention
layers were only created for mode "att". -/
theorem afm_unknown_mode_fails (k t n : ℕ) (featNum : ℕ → ℕ)
    (embed : ℕ → ℕ → Fin k → ℝ) (mode : String) (a : AttParams k t) (r : ℝ)
    (dW : Fin k → ℝ) (dB : ℝ) (d : ℕ → ℝ) (s : ℕ → ℕ)
    (h1 : mode ≠ "max") (h2 : mode ≠ "avg") (h3 : mode ≠ "att") :
    AFM.call (AFM.init n featNum embed mode a r dW dB) d s = none := by
  simp [AFM.call, AFM.pool, AFM.init, h1, h2, h3]

/-- C10: the Dropout layer constructed in AFM.__init__ is never applied
in the forward pass: two models differing only in the dropout
constructor argument produce identical outputs on every input. -/
theorem afm_dropout_unused (k t n : ℕ) (featNum : ℕ → ℕ)
    (embed : ℕ → ℕ → Fin k → ℝ) (mode : String) (a : AttParams k t) (r1 r2 : ℝ)
    (dW : Fin k → ℝ) (dB : ℝ) (d : ℕ → ℝ) (s : ℕ → ℕ) :
    AFM.call (AFM.init n featNum embed mode a r1 dW dB) d s =
      AFM.call (AFM.init n featNum embed mode a r2 dW dB) d s := rfl

/-! ### Witnesses -/

/-- Witness for C1: both hypotheses hold on the concrete instances and
the outputs lie in the unit interval. -/
theorem models_output_in_unit_interval_witness :
    sigmoid 0 ∈ Set.Icc (0 : ℝ) 1 ∧
    DeepFM.callBatch testDeepFM (fun _ _ => 0) (fun _ _ => 0) (0 : Fin 1) ∈
      Set.Icc (0 : ℝ) 1 := by
  have hcall : AFM.callBatch (testAFM "max") (fun _ _ => 0) (fun _ _ => 0) (0 : Fin 1) =
      some (sigmoid 0) := by
    simp [AFM.callBatch, AFM.call, AFM.pool, AFM.biInteraction, AFM.embedList,
      gather, rowIdx, colIdx, combinations2, testAFM, testAtt, AFM.init, List.range_succ]
  exact ⟨models_output_in_unit_interval.1 1 1 1 (testAFM "max") _ _ 0 (sigmoid 0)
      (fun g hg => by simp [testAFM, AFM.init]) hcall,
    models_output_in_unit_interval.2 testDeepFM 1 _ _ 0
      (fun g hg => by simp [testDeepFM])⟩

/-- Witness for C3: on the concrete two-field instance the interaction
layer has exactly one interaction vector. -/
theorem afm_pairwise_interaction_layer_witness :
    (AFM.biInteraction (AFM.embedList (testAFM "max") (fun _ => 0)) (testAFM "max").n).length =
      1 :=
  (afm_pairwise_interaction_layer 1 1 (testAFM "max") (fun _ => 0) (Nat.le_refl 2)).1

/-- Witness for C4: on the concrete instance with mode "max" the pooled
vector is the sum over the pairs axis. -/
theorem afm_max_mode_pools_by_sum_witness :
    AFM.pool (testAFM "max")
        (AFM.biInteraction (AFM.embedList (testAFM "max") (fun _ => 0)) (testAFM "max").n) =
      some (fun f => ((AFM.biInteraction (AFM.embedList (testAFM "max") (fun _ => 0))
        (testAFM "max").n).map (fun v => v f)).sum) :=
  afm_max_mode_pools_by_sum 1 1 (testAFM "max") (fun _ => 0) rfl

/-- Witness for C5: on the concrete instance with mode "att" the
softmax weights sum to 1 and the pooled output is the weighted sum. -/
theorem afm_attention_softmax_normalized_witness :
    (softmaxList ((AFM.biInteraction (AFM.embedList (testAFM "att") (fun _ => 0))
        (testAFM "att").n).map (AFM.attentionScore testAtt))).sum = 1 ∧
    AFM.pool (testAFM "att")
        (AFM.biInteraction (AFM.embedList (testAFM "att") (fun _ => 0)) (testAFM "att").n) =
      some (fun f => (List.zipWith (fun v w => v f * w)
        (AFM.biInteraction (AFM.embedList (testAFM "att") (fun _ => 0)) (testAFM "att").n)
        (softmaxList ((AFM.biInteraction (AFM.embedList (testAFM "att") (fun _ => 0))
          (testAFM "att").n).map (AFM.attentionScore testAtt)))).sum) :=
  (afm_attention_softmax_normalized 1 1 (testAFM "att") testAtt (fun _ => 0) rfl rfl
    (Nat.le_refl 2)).2

/-- Witness for C9: a model constructed with mode "foo" returns none on
a concrete input. -/
theorem afm_unknown_mode_fails_witness :
    AFM.call (AFM.init 2 (fun _ => 1) (fun _ _ _ => 0) "foo" testAtt 0 (fun _ => 0) 0)
      (fun _ => 0) (fun _ => 0) = none :=
  afm_unknown_mode_fails 1 1 2 (fun _ => 1) (fun _ _ _ => 0) "foo" testAtt 0
    (fun _ => 0) 0 (fun _ => 0) (fun _ => 0) (by decide) (by decide) (by decide)

end CTR
